import Mathlib

/-!
Shallow embedding of the prime/factorization engine of the `metadecryptor`
repository: the factorization strategies `trial_division` (trial_division3.py),
`fermat` (fermat3.py), `vfactor` (vfactor3.py), `euler` and the two totient
scans (euler3.py), and the primality/factorisation functions of pyprimes.py
(`isprime`, `_choose_bases`, `miller_rabin`, `_is_composite`, `_factor2`,
`isprime_naive`, `factors`, `factorise`).

Python's arbitrary-precision integers are modelled as `Nat` (or `Int` where a
loop variable can go negative); Python `while` loops become fuel-based
structural recursions, with the fuel chosen at each entry point large enough
that the recursion's behaviour agrees with the source's unbounded loop
(proved where a claim depends on it).  Functions that can fall off the end of
a loop and return Python `None` are modelled with `Option`.

The helper module `lib3` (shared math utilities: `sqrt`, `ceil`, `floor`,
`is_square`, `gcd`) is imported by the five factor files but is not part of
the source tree; its operations are modelled from the spec, section 4.1:
`isqrt` is the exact integer square root and `is_square n` is true iff
`isqrt n ^ 2 = n`; `gcd` is the Euclidean gcd (`Nat.gcd`).  The prime
generator `primes()` of pyprimes.py (consumed through `primes_above` by
euler3.py and through `factorise`) is modelled denotationally: advancing the
generator past `x` yields the least prime strictly greater than `x`, which
`nextPrimeAbove` computes by an upward scan with the repository's own naive
primality test.
-/

/-! ### Arithmetic utilities (lib3, modelled from the spec) -/

/-- Newton iteration for the integer square root, with explicit fuel.
One step maps `guess` to `(guess + n / guess) / 2`, stopping as soon as the
next guess is not smaller.  This is the same iteration as `Nat.sqrt`, made
structurally recursive so that it evaluates by kernel reduction. -/
def heron (n : Nat) : Nat → Nat → Nat
  | 0, guess => guess
  | fuel + 1, guess =>
    let next := (guess + n / guess) / 2
    if next < guess then heron n fuel next else guess

/-- Modelled from the spec: `isqrt(n)` is the exact integer square root
`floor(sqrt(n))` (spec section 4.1); realises lib3's `floor(sqrt(N))`. -/
def isqrt (n : Nat) : Nat :=
  if n ≤ 1 then n else heron n (n / 2) (n / 2)

/-- Modelled from the spec: `is_square(n)` returns true iff
`isqrt(n)**2 == n` (spec section 4.1). -/
def is_square (n : Nat) : Bool :=
  isqrt n * isqrt n == n

/-- Modelled from the spec: `int(ceil(sqrt(N)))` as used by the factor
files; the ceiling of the real square root of `N`. -/
def ceilSqrt (n : Nat) : Nat :=
  if isqrt n * isqrt n == n then isqrt n else isqrt n + 1

/-- Modular exponentiation `b ^ e % n` by square-and-multiply, with fuel
(the fuel only needs to be at least the bit length of `e`, and the function
is stable once the fuel suffices).  Models Python's three-argument `pow`. -/
def powModAux (n b : Nat) : Nat → Nat → Nat
  | 0, _ => 1 % n
  | fuel + 1, e =>
    if e = 0 then 1 % n
    else
      let r := powModAux n (b * b % n) fuel (e / 2)
      if e % 2 = 1 then b * r % n else r

/-- `powMod b e n = b ^ e % n`, executable by kernel reduction.
Models Python's `pow(b, e, n)`. -/
def powMod (b e n : Nat) : Nat :=
  powModAux n (b % n) e e

/-- Balanced bounded-universal check: `ballPow p d lo` is true iff `p` holds
on every point of the interval `[lo, lo + 2 ^ d)`.  The balanced recursion
keeps kernel-reduction depth logarithmic, unlike a linear scan. -/
def ballPow (p : Nat → Bool) : Nat → Nat → Bool
  | 0, lo => p lo
  | d + 1, lo => ballPow p d lo && ballPow p d (lo + 2 ^ d)

/-! ### pyprimes.py: primality testing -/

/-- pyprimes.py `_factor2`, loop body: halve `d` and count until odd
(fuel-based; `_factor2` supplies fuel `n`, enough for every `n ≥ 1`). -/
def _factor2go : Nat → Nat → Nat × Nat
  | 0, d => (d, 0)
  | fuel + 1, d =>
    if d % 2 = 1 then (d, 0)
    else
      let r := _factor2go fuel (d / 2)
      (r.1, r.2 + 1)

/-- pyprimes.py lines 1008-1029: factorise positive `n` as `d * 2 ^ i` with
`d` odd, returning `(d, i)`. -/
def _factor2 (n : Nat) : Nat × Nat :=
  _factor2go n n

/-- pyprimes.py lines 1032-1051: test whether base `b` witnesses that `n` is
composite, given `n - 1 = d * 2 ^ s` with `d` odd.  The `for i in range(s)`
scan is the `List.range s` search. -/
def _is_composite (b d s n : Nat) : Bool :=
  if powMod b d n = 1 then false
  else if (List.range s).any (fun i => powMod b (2 ^ i * d) n == n - 1) then false
  else true

/-- pyprimes.py lines 947-1005: Miller-Rabin test of `n` against a list of
bases (the source's `_base_to_bases` validation `1 ≤ b < n` is a
precondition of the callers modelled here, all of which satisfy it). -/
def miller_rabin (n : Nat) (bases : List Nat) : Bool :=
  if n < 2 then false
  else if n = 2 then true
  else if n % 2 = 0 then false
  else
    let ds := _factor2 (n - 1)
    bases.all (fun a => ! _is_composite a ds.1 ds.2 n)

/-- pyprimes.py lines 785-821 `_choose_bases`: deterministic base tuples by
magnitude; in the probabilistic regime the forty values drawn by
`random.randint(18, n-1)` are the explicit parameter `rnd`. -/
def _choose_bases (n : Nat) (rnd : List Nat) : List Nat :=
  if n < 1373653 then [2, 3]
  else if n < 9080191 then [31, 73]
  else if n < 4759123141 then [2, 7, 61]
  else if n < 2152302898747 then [2, 3, 5, 7, 11]
  else if n < 3474749660383 then [2, 3, 5, 7, 11, 13]
  else if n < 341550071728321 then [2, 3, 5, 7, 11, 13, 17]
  else [2, 3, 5, 7, 11, 13, 17] ++ rnd

/-- pyprimes.py lines 753-782 `isprime`; `rnd` is the random draw consumed
by `_choose_bases` in the probabilistic regime (ignored below the last
threshold).  The `warn_probably` warning does not affect the returned
value and is not modelled. -/
def isprime (n : Nat) (rnd : List Nat) : Bool :=
  if n < 2 then false
  else if n = 2 then true
  else if n % 2 = 0 then false
  else if n ≤ 7 then true
  else miller_rabin n (_choose_bases n rnd)

/-- The odd trial-division scan of `isprime_naive`:
`for i in range(3, int(n**0.5)+1, 2)`, checking `n % i == 0`; the range
bound `int(n**0.5)` is computed once by the source and passed here as
`bound`.  Returns `true` when no divisor is found; fuel `bound` covers the
whole range. -/
def oddDivSearch (n bound : Nat) : Nat → Nat → Bool
  | 0, _ => true
  | fuel + 1, i =>
    if bound < i then true
    else if n % i = 0 then false
    else oddDivSearch n bound fuel (i + 2)

/-- pyprimes.py lines 824-843 `isprime_naive`: naive trial division
(`int(n**0.5)` is exact in the ranges exercised and is modelled by
`isqrt`). -/
def isprime_naive (n : Nat) : Bool :=
  if n = 2 then true
  else if n < 2 || n % 2 = 0 then false
  else oddDivSearch n (isqrt n) (isqrt n) 3

/-- Verification-side fast form of the inner scan of `_is_composite`:
`chainNegOne n s x` is true iff one of `x, x^2, x^4, ..., x^(2^(s-1))`
equals `n - 1` modulo `n`.  Proven equivalent to the source's rescanning
loop (`_is_composite_eq_sprpBase`); used only to evaluate the source
functions efficiently inside the kernel. -/
def chainNegOne (n : Nat) : Nat → Nat → Bool
  | 0, _ => false
  | s + 1, x => (x == n - 1) || chainNegOne n s (x * x % n)

/-- Verification-side fast strong-probable-prime test of `n` to base `b`,
with `n - 1 = d * 2 ^ s`: true iff `b` is *not* a Miller-Rabin witness for
compositeness.  Proven equal to `! _is_composite b d s n`. -/
def sprpBase (n d s b : Nat) : Bool :=
  (powMod b d n == 1) || chainNegOne n s (powMod b d n)

/-- Verification-side fast form of `isprime` in its lowest deterministic
regime (`n < 1373653`, bases 2 and 3); proven equal to `isprime n []`
there (`isprime_eq_fast`), and used to evaluate the `[2, 10000]`
agreement check without re-running the source's quadratic rescan. -/
def isprimeFast (n : Nat) : Bool :=
  if n < 2 then false
  else if n = 2 then true
  else if n % 2 = 0 then false
  else if n ≤ 7 then true
  else sprpBase n (_factor2 (n - 1)).1 (_factor2 (n - 1)).2 2 &&
       sprpBase n (_factor2 (n - 1)).1 (_factor2 (n - 1)).2 3

/-- Upward scan for the next number accepted by `isprime_naive`, with fuel;
models advancing the pyprimes `primes()` generator past a point. -/
def nextAbove : Nat → Nat → Nat
  | 0, c => c
  | fuel + 1, c => if isprime_naive c then c else nextAbove fuel (c + 1)

/-- pyprimes.py lines 639-654: `next(primes_above(x))`, the least prime
strictly greater than `x`, modelled as an upward scan (the fuel `2x + 4`
is sufficient by Bertrand's postulate). -/
def nextPrimeAbove (x : Nat) : Nat :=
  nextAbove (2 * x + 4) (x + 1)

/-! ### pyprimes.py: factorisation -/

/-- The inner `while n % p == 0` loop of `factorise`: strip all factors `p`
from `n`, returning the multiplicity and the reduced value (fuel-based;
fuel `n` is enough for every `p ≥ 2`, `n ≥ 1`). -/
def stripGo (p : Nat) : Nat → Nat → Nat × Nat
  | 0, n => (0, n)
  | fuel + 1, n =>
    if n % p = 0 then
      let r := stripGo p fuel (n / p)
      (r.1 + 1, r.2)
    else (0, n)

/-- pyprimes.py lines 1092-1127, main loop of `factorise` for `n ≥ 2`:
iterate over the primes `p = 2, 3, 5, ...` while `p * p ≤ n`, yielding
`(p, count)` for each prime dividing `n`, then yield the remaining `n` if it
is not 1. -/
def factoriseGo : Nat → Nat → Nat → List (Nat × Nat)
  | 0, _, n => if n ≠ 1 then [(n, 1)] else []
  | fuel + 1, p, n =>
    if n < p * p then (if n ≠ 1 then [(n, 1)] else [])
    else
      let r := stripGo p n n
      let rest := factoriseGo fuel (nextPrimeAbove p) r.2
      if r.1 ≠ 0 then (p, r.1) :: rest else rest

/-- pyprimes.py lines 1092-1127 `factorise` over the integers: `0`, `1` and
`-1` are their own only factor; a negative `n` yields `(-1, 1)` and then the
factorisation of `-n`. -/
def factorise (n : Int) : List (Int × Nat) :=
  if n = 0 ∨ n = 1 ∨ n = -1 then [(n, 1)]
  else if n < 0 then
    (-1, 1) :: (factoriseGo (n.natAbs + 2) 2 n.natAbs).map (fun pc => ((pc.1 : Int), pc.2))
  else (factoriseGo (n.natAbs + 2) 2 n.natAbs).map (fun pc => ((pc.1 : Int), pc.2))

/-- pyprimes.py lines 1065-1089 `factors`: expand each `(p, count)` of
`factorise n` into `count` copies of `p`, in order. -/
def factors (n : Int) : List Int :=
  (factorise n).flatMap (fun pc => List.replicate pc.2 pc.1)

/-! ### trial_division3.py -/

/-- The descending scan of `trial_division`: from `p` downwards, return
`(p, N / p)` at the first `p` with `N % p == 0 or p < 2` (fuel-based; the
entry point supplies fuel equal to the starting `p`, enough since `p`
decreases by 1 each step). -/
def tdGo (N : Nat) : Nat → Nat → Nat × Nat
  | 0, p => (p, N / p)
  | fuel + 1, p =>
    if N % p = 0 ∨ p < 2 then (p, N / p)
    else tdGo N fuel (p - 1)

/-- trial_division3.py lines 3-10 `trial_division`: descending trial
division from `ceil(sqrt(N))` (`int(N/p)` is exact integer division at the
moduli exercised, where `N % p == 0`). -/
def trial_division (N : Nat) : Nat × Nat :=
  tdGo N (ceilSqrt N) (ceilSqrt N)

/-! ### fermat3.py -/

/-- The `while stop == False` loop of `fermat`: at candidate `a`, if
`a*a - N` is a perfect square `b*b` and `p = a - b` is neither 1 nor `N`,
return `(a - b, a + b)`; stop unsuccessfully after processing `a = N`
(fuel-based; the entry point's fuel `N + 1` covers the whole scan). -/
def fermatGo (N : Nat) : Nat → Nat → Option (Nat × Nat)
  | 0, _ => none
  | fuel + 1, a =>
    if is_square (a * a - N) then
      if a - isqrt (a * a - N) ≠ 1 ∧ a - isqrt (a * a - N) ≠ N then
        some (a - isqrt (a * a - N), a + isqrt (a * a - N))
      else if a = N then none else fermatGo N fuel (a + 1)
    else if a = N then none else fermatGo N fuel (a + 1)

/-- fermat3.py lines 3-16 `fermat`: difference-of-squares search starting at
`ceil(sqrt(N))`; `none` models Python's falling off the loop (returning
`None`). -/
def fermat (N : Nat) : Option (Nat × Nat) :=
  fermatGo N (N + 1) (ceilSqrt N)

/-! ### vfactor3.py -/

/-- vfactor3.py lines 3-7 `LSB`: parity of the last binary digit. -/
def LSB (decimal : Int) : String :=
  if decimal % 2 = 1 then "odd" else "even"

/-- The `while m != N` loop of `vfactor`, on integer state (Python's `y -= 2`
can drive `y` negative): increment `x` by 2 while `x*y < N`, decrement `y`
by 2 while `x*y > N`, return `(x, y)` when `x*y = N` (fuel-based). -/
def vfactorGo (N : Int) : Nat → Int → Int → Option (Int × Int)
  | 0, _, _ => none
  | fuel + 1, x, y =>
    if x * y = N then some (x, y)
    else if x * y < N then vfactorGo N fuel (x + 2) y
    else vfactorGo N fuel x (y - 2)

/-- vfactor3.py lines 10-14: the starting `root`, `floor(sqrt(N))` made odd
by subtracting 1 when its least significant bit is even. -/
def vfactorRoot (N : Nat) : Int :=
  let root : Int := isqrt N
  if LSB root = "even" then root - 1 else root

/-- vfactor3.py lines 9-24 `vfactor`: square search from
`(x, y) = (root + 2, root)`.  The fuel `N + 4` is enough for the loop to
reach `x*y = N` whenever it terminates at all (each step moves the state by
2 within `[1, N]`-bounded coordinates). -/
def vfactor (N : Nat) : Option (Int × Int) :=
  vfactorGo N (N + 4) (vfactorRoot N + 2) (vfactorRoot N)

/-- The `vfactor` loop terminates on input `N`: some finite fuel makes the
state search return. -/
def vfactor_halts (N : Nat) : Prop :=
  ∃ fuel, (vfactorGo N fuel (vfactorRoot N + 2) (vfactorRoot N)).isSome

/-! ### euler3.py -/

/-- The ascending totient loop of `euler_phi_asc`, counting
`gcd(n, k) = 1` for `k = 1, ..., m` in ascending order. -/
def eulerPhiAscGo (n : Nat) : Nat → Nat
  | 0 => 0
  | k + 1 => eulerPhiAscGo n k + (if Nat.gcd n (k + 1) = 1 then 1 else 0)

/-- euler3.py lines 3-8 `euler_phi_asc`: `for k in range(1, n+1)` counting
`gcd(n, k) == 1`. -/
def euler_phi_asc (n : Nat) : Nat :=
  eulerPhiAscGo n n

/-- The descending totient loop of `euler_phi_desc`, counting
`gcd(n, k) = 1` for `k = m, m-1, ..., 1` in descending order. -/
def eulerPhiDescGo (n : Nat) : Nat → Nat
  | 0 => 0
  | k + 1 => (if Nat.gcd n (k + 1) = 1 then 1 else 0) + eulerPhiDescGo n k

/-- euler3.py lines 10-15 `euler_phi_desc`: `for k in range(n, 0, -1)`
counting `gcd(n, k) == 1`. -/
def euler_phi_desc (n : Nat) : Nat :=
  eulerPhiDescGo n n

/-- Balanced count of `k` in `[lo, lo + len)` with `gcd(n, k) = 1`; a
log-depth evaluator for the totient scans, used to compute them by kernel
reduction without a deep linear recursion.  Correct whenever
`len ≤ 2 ^ fuel`. -/
def coprimeCountBal (n : Nat) : Nat → Nat → Nat → Nat
  | 0, lo, len => if len = 0 then 0 else if Nat.gcd n lo = 1 then 1 else 0
  | fuel + 1, lo, len =>
    if len ≤ 1 then (if len = 0 then 0 else if Nat.gcd n lo = 1 then 1 else 0)
    else coprimeCountBal n fuel lo (len / 2) + coprimeCountBal n fuel (lo + len / 2) (len - len / 2)

/-- euler3.py lines 17-20 `euler`: solve `p^2 - (N - φ + 1)p + N = 0` by
the quadratic formula, move to the next prime at or above the root via
`next(primes_above(int(p)))`, and return `(p, N / p)`.  The real-valued
seed `((N-et+1) - sqrt((N-et+1)^2 - 4*et)) / 2` truncates to the integer
computed here at the discriminants exercised (perfect squares). -/
def euler (N et : Nat) : Nat × Nat :=
  let A := N - et + 1
  let p0 := (A - isqrt (A * A - 4 * et)) / 2
  let p := nextPrimeAbove p0
  (p, N / p)

/-! ### Spec-side function for claim C2 -/

/-- The base tuple that the spec's magnitude schedule assigns to `n`
(spec section 4.3), written from the spec's words, to be compared with
`_choose_bases`. -/
def basesFor (n : Nat) : List Nat :=
  if n < 1373653 then [2, 3]
  else if n < 9080191 then [31, 73]
  else if n < 4759123141 then [2, 7, 61]
  else if n < 2152302898747 then [2, 3, 5, 7, 11]
  else if n < 3474749660383 then [2, 3, 5, 7, 11, 13]
  else [2, 3, 5, 7, 11, 13, 17]

/-! ## Theorems -/

/-! ### The integer square root model agrees with `Nat.sqrt` -/

theorem heron_eq_iter (n : Nat) :
    ∀ fuel guess, guess ≤ fuel → heron n fuel guess = Nat.sqrt.iter n guess := by
  intro fuel
  induction fuel with
  | zero =>
    intro guess hg
    interval_cases guess
    unfold Nat.sqrt.iter
    simp [heron]
  | succ fuel ih =>
    intro guess hg
    rw [heron]
    unfold Nat.sqrt.iter
    by_cases h : (guess + n / guess) / 2 < guess
    · simp only [h, if_true, dif_pos h]
      exact ih _ (by omega)
    · simp [h]

theorem isqrt_eq_sqrt (n : Nat) : isqrt n = Nat.sqrt n := by
  unfold isqrt Nat.sqrt
  by_cases h : n ≤ 1
  · simp [h]
  · simp only [h, if_false]
    exact heron_eq_iter n (n / 2) (n / 2) le_rfl

theorem is_square_iff (n : Nat) : is_square n = true ↔ isqrt n * isqrt n = n := by
  simp [is_square]

/-- `ceilSqrt n` squared is at least `n`. -/
theorem ceilSqrt_sq_ge (n : Nat) : n ≤ ceilSqrt n * ceilSqrt n := by
  unfold ceilSqrt
  rw [isqrt_eq_sqrt]
  by_cases h : Nat.sqrt n * Nat.sqrt n = n
  · simp [h]
  · simp only [h, beq_iff_eq, if_false, if_neg h]
    exact le_of_lt (by simpa [Nat.succ_eq_add_one] using Nat.lt_succ_sqrt n)

/-- `ceilSqrt` is the least `m` with `n ≤ m * m`. -/
theorem ceilSqrt_le {n m : Nat} (h : n ≤ m * m) : ceilSqrt n ≤ m := by
  unfold ceilSqrt
  rw [isqrt_eq_sqrt]
  have hm : Nat.sqrt n ≤ m := by
    have hs := Nat.sqrt_le_sqrt h
    rwa [Nat.sqrt_eq] at hs
  by_cases hsq : Nat.sqrt n * Nat.sqrt n = n
  · simp only [hsq, beq_self_eq_true, if_true]
    exact hm
  · simp only [beq_iff_eq, hsq, if_false]
    have hne : Nat.sqrt n ≠ m := by
      intro he
      apply hsq
      have h1 : Nat.sqrt n * Nat.sqrt n ≤ n := Nat.sqrt_le n
      have h2 : n ≤ Nat.sqrt n * Nat.sqrt n := by rw [he]; exact h
      omega
    omega

theorem ceilSqrt_le_self {n : Nat} (h : 1 ≤ n) : ceilSqrt n ≤ n :=
  ceilSqrt_le (Nat.le_mul_of_pos_left n h)

theorem powModAux_eq (n : Nat) :
    ∀ fuel b e, e ≤ fuel → powModAux n b fuel e = b ^ e % n := by
  intro fuel
  induction fuel with
  | zero =>
    intro b e he
    interval_cases e
    simp [powModAux]
  | succ fuel ih =>
    intro b e he
    rw [powModAux]
    by_cases h0 : e = 0
    · simp [h0]
    · simp only [h0, if_false]
      have hrec : e / 2 ≤ fuel := by omega
      rw [ih _ _ hrec]
      have hbb : (b * b % n) ^ (e / 2) % n = (b * b) ^ (e / 2) % n := by
        rw [Nat.pow_mod]
        rw [Nat.mod_mod_of_dvd _ dvd_rfl]
        rw [← Nat.pow_mod]
      rw [hbb]
      have hsplit : (b * b) ^ (e / 2) = b ^ (2 * (e / 2)) := by
        rw [← pow_two, ← pow_mul]
      rw [hsplit]
      by_cases hpar : e % 2 = 1
      · simp only [hpar, if_true]
        rw [Nat.mul_mod, Nat.mod_mod_of_dvd _ dvd_rfl, ← Nat.mul_mod]
        have : b * (b ^ (2 * (e / 2))) = b ^ (2 * (e / 2) + 1) := by ring
        rw [this]
        congr 2
        omega
      · simp only [hpar, if_false]
        congr 2
        omega

theorem powMod_eq (b e n : Nat) : powMod b e n = b ^ e % n := by
  unfold powMod
  rw [powModAux_eq n e (b % n) e le_rfl, ← Nat.pow_mod]

theorem powMod_lt (b e n : Nat) (h : 1 ≤ n) : powMod b e n < n := by
  rw [powMod_eq]
  exact Nat.mod_lt _ h

/-! ### The fast strong-probable-prime forms agree with the source -/

/-- `chainNegOne` finds `n - 1` along the squaring chain exactly when some
`x ^ (2 ^ i) mod n` with `i < s` equals `n - 1`. -/
theorem chainNegOne_iff (n : Nat) (hn : 1 ≤ n) :
    ∀ s x, x < n →
      (chainNegOne n s x = true ↔ ∃ i, i < s ∧ x ^ 2 ^ i % n = n - 1) := by
  intro s
  induction s with
  | zero =>
    intro x hx
    rw [chainNegOne]
    simp
  | succ s ih =>
    intro x hx
    rw [chainNegOne, Bool.or_eq_true, beq_iff_eq,
      ih (x * x % n) (Nat.mod_lt _ hn)]
    have hkey : ∀ i, x ^ 2 ^ (i + 1) % n = (x * x % n) ^ 2 ^ i % n := by
      intro i
      have h1 : x ^ 2 ^ (i + 1) = (x * x) ^ 2 ^ i := by
        rw [← pow_two, ← pow_mul]
        congr 1
        rw [pow_succ]
        ring
      rw [h1, Nat.pow_mod]
    constructor
    · rintro (h0 | ⟨i, hi, hpow⟩)
      · exact ⟨0, by omega, by simpa [Nat.mod_eq_of_lt hx] using h0⟩
      · exact ⟨i + 1, by omega, by rw [hkey i]; exact hpow⟩
    · rintro ⟨i, hi, hpow⟩
      match i with
      | 0 =>
        left
        rw [pow_zero, pow_one, Nat.mod_eq_of_lt hx] at hpow
        exact hpow
      | j + 1 =>
        right
        exact ⟨j, by omega, by rw [← hkey j]; exact hpow⟩

/-- The source's rescanning witness test `_is_composite` is the negation of
the fast chain test `sprpBase`. -/
theorem _is_composite_eq_sprpBase (n b d s : Nat) (hn : 2 ≤ n) :
    _is_composite b d s n = ! sprpBase n d s b := by
  have hx : powMod b d n < n := powMod_lt b d n (by omega)
  unfold _is_composite sprpBase
  by_cases h1 : powMod b d n = 1
  · rw [if_pos h1]
    simp [h1]
  · rw [if_neg h1]
    have hbeq : (powMod b d n == 1) = false := by simp [h1]
    rw [hbeq, Bool.false_or]
    have hAC : (List.range s).any (fun i => powMod b (2 ^ i * d) n == n - 1)
        = chainNegOne n s (powMod b d n) := by
      have hiff : ((List.range s).any (fun i => powMod b (2 ^ i * d) n == n - 1) = true)
          ↔ (chainNegOne n s (powMod b d n) = true) := by
        rw [List.any_eq_true, chainNegOne_iff n (by omega) s _ hx]
        have hpm : ∀ i, powMod b (2 ^ i * d) n = powMod b d n ^ 2 ^ i % n := by
          intro i
          rw [powMod_eq, powMod_eq, ← Nat.pow_mod, ← pow_mul, Nat.mul_comm d (2 ^ i)]
        constructor
        · rintro ⟨i, hmem, hbe⟩
          rw [List.mem_range] at hmem
          rw [beq_iff_eq, hpm i] at hbe
          exact ⟨i, hmem, hbe⟩
        · rintro ⟨i, hi, hpow⟩
          refine ⟨i, List.mem_range.2 hi, ?_⟩
          rw [beq_iff_eq, hpm i]
          exact hpow
      cases hA : (List.range s).any (fun i => powMod b (2 ^ i * d) n == n - 1) with
      | true => exact (hiff.1 hA).symm
      | false =>
        cases hC : chainNegOne n s (powMod b d n) with
        | true =>
          exfalso
          have := hiff.2 hC
          rw [hA] at this
          exact Bool.noConfusion this
        | false => rfl
    rw [hAC]
    cases chainNegOne n s (powMod b d n) with
    | true => simp
    | false => simp

/-- For odd `n ≥ 3`, `miller_rabin` is the conjunction of the fast chain
tests over its bases. -/
theorem miller_rabin_eq_sprp (n : Nat) (bases : List Nat)
    (h3 : 3 ≤ n) (hodd : n % 2 = 1) :
    miller_rabin n bases =
      bases.all (fun a => sprpBase n (_factor2 (n - 1)).1 (_factor2 (n - 1)).2 a) := by
  unfold miller_rabin
  rw [if_neg (by omega : ¬n < 2), if_neg (by omega : ¬n = 2),
    if_neg (by omega : ¬n % 2 = 0)]
  show bases.all
      (fun a => ! _is_composite a (_factor2 (n - 1)).1 (_factor2 (n - 1)).2 n) = _
  congr 1
  funext a
  rw [_is_composite_eq_sprpBase n a (_factor2 (n - 1)).1 (_factor2 (n - 1)).2 (by omega),
    Bool.not_not]

/-- In the lowest deterministic regime, `isprime` is computed by
`isprimeFast`. -/
theorem isprime_eq_fast (n : Nat) (h : n < 1373653) :
    isprime n [] = isprimeFast n := by
  unfold isprime isprimeFast
  by_cases h2 : n < 2
  · rw [if_pos h2, if_pos h2]
  · rw [if_neg h2, if_neg h2]
    by_cases he2 : n = 2
    · rw [if_pos he2, if_pos he2]
    · rw [if_neg he2, if_neg he2]
      by_cases hev : n % 2 = 0
      · rw [if_pos hev, if_pos hev]
      · rw [if_neg hev, if_neg hev]
        by_cases h7 : n ≤ 7
        · rw [if_pos h7, if_pos h7]
        · rw [if_neg h7, if_neg h7]
          have hbases : _choose_bases n [] = [2, 3] := by
            unfold _choose_bases
            rw [if_pos h]
          rw [hbases, miller_rabin_eq_sprp n [2, 3] (by omega) (by omega)]
          simp [List.all_cons, List.all_nil]

/-! ### Bounded-range checking -/

theorem ballPow_eq (p : Nat → Bool) :
    ∀ d lo, ballPow p d lo = true ↔ ∀ i < 2 ^ d, p (lo + i) = true := by
  intro d
  induction d with
  | zero =>
    intro lo
    constructor
    · intro h i hi
      interval_cases i
      simpa using h
    · intro h
      simpa using h 0 (by norm_num)
  | succ d ih =>
    intro lo
    rw [ballPow, Bool.and_eq_true, ih lo, ih (lo + 2 ^ d)]
    constructor
    · rintro ⟨h1, h2⟩ i hi
      by_cases hlt : i < 2 ^ d
      · exact h1 i hlt
      · have hge : 2 ^ d ≤ i := le_of_not_lt hlt
        have : lo + i = lo + 2 ^ d + (i - 2 ^ d) := by omega
        rw [this]
        apply h2
        have : 2 ^ (d + 1) = 2 ^ d + 2 ^ d := by ring
        omega
    · intro h
      constructor
      · intro i hi
        apply h
        have : 2 ^ d ≤ 2 ^ (d + 1) := Nat.pow_le_pow_right (by norm_num) (by omega)
        omega
      · intro i hi
        have heq : lo + 2 ^ d + i = lo + (2 ^ d + i) := by omega
        rw [heq]
        apply h
        have : 2 ^ (d + 1) = 2 ^ d + 2 ^ d := by ring
        omega

/-! ### trial_division -/

/-- The descending scan always stops at a divisor of `N` (at worst `p = 1`),
and returns that divisor paired with the exact cofactor. -/
theorem tdGo_spec (N : Nat) :
    ∀ fuel p, 1 ≤ p → p ≤ fuel → N % (tdGo N fuel p).1 = 0 ∧
      1 ≤ (tdGo N fuel p).1 ∧ (tdGo N fuel p).2 = N / (tdGo N fuel p).1 := by
  intro fuel
  induction fuel with
  | zero => intro p h1 h2; omega
  | succ fuel ih =>
    intro p h1 h2
    rw [tdGo]
    by_cases hc : N % p = 0 ∨ p < 2
    · have hp : N % p = 0 := by
        rcases hc with h | h
        · exact h
        · have hp1 : p = 1 := by omega
          rw [hp1]
          exact Nat.mod_one N
      simp [hc, hp, h1]
    · simp only [hc, if_false]
      have hp2 : 2 ≤ p := by
        rcases Nat.lt_or_ge p 2 with h | h
        · exact absurd (Or.inr h) hc
        · exact h
      exact ih (p - 1) (by omega) (by omega)

/-- `trial_division` returns a pair whose product is exactly `N`, for every
`N ≥ 1`. -/
theorem trial_division_prod {N : Nat} (hN : 1 ≤ N) :
    (trial_division N).1 * (trial_division N).2 = N := by
  have hc1 : 1 ≤ ceilSqrt N := by
    have hsq := ceilSqrt_sq_ge N
    by_contra hcon
    have h0 : ceilSqrt N = 0 := by omega
    rw [h0, Nat.mul_zero] at hsq
    omega
  obtain ⟨hmod, hpos, hsnd⟩ := tdGo_spec N (ceilSqrt N) (ceilSqrt N) hc1 le_rfl
  unfold trial_division
  rw [hsnd]
  exact Nat.mul_div_cancel' (Nat.dvd_of_mod_eq_zero hmod)

/-! ### fermat -/

/-- Any pair returned by the fermat loop multiplies to `N` (soundness),
as long as the loop starts at a candidate with `N ≤ a * a`. -/
theorem fermatGo_sound (N : Nat) :
    ∀ fuel a p q, N ≤ a * a → fermatGo N fuel a = some (p, q) → p * q = N := by
  intro fuel
  induction fuel with
  | zero => intro a p q _ h; exact Option.noConfusion h
  | succ fuel ih =>
    intro a p q ha h
    rw [fermatGo] at h
    by_cases hsq : is_square (a * a - N) = true
    · rw [if_pos hsq] at h
      by_cases hg : a - isqrt (a * a - N) ≠ 1 ∧ a - isqrt (a * a - N) ≠ N
      · rw [if_pos hg] at h
        obtain ⟨hp, hq⟩ := Prod.mk.injEq .. ▸ Option.some.inj h
        set b := isqrt (a * a - N) with hb
        have hbb : b * b = a * a - N := (is_square_iff _).1 hsq
        have hble : b ≤ a := by
          have hb2 : b * b ≤ a * a := by omega
          exact Nat.mul_self_le_mul_self_iff.1 hb2
        have hs := Nat.sq_sub_sq a b
        rw [pow_two, pow_two] at hs
        rw [← hp, ← hq]
        calc (a - b) * (a + b) = (a + b) * (a - b) := Nat.mul_comm _ _
          _ = a * a - b * b := hs.symm
          _ = N := by omega
      · rw [if_neg hg] at h
        by_cases haN : a = N
        · rw [if_pos haN] at h; exact Option.noConfusion h
        · rw [if_neg haN] at h
          exact ih (a + 1) p q (by nlinarith) h
    · rw [if_neg hsq] at h
      by_cases haN : a = N
      · rw [if_pos haN] at h; exact Option.noConfusion h
      · rw [if_neg haN] at h
        exact ih (a + 1) p q (by nlinarith) h

/-- Any pair returned by the fermat loop has a first component that is
neither 1 nor `N`: the loop's guard is honored. -/
theorem fermatGo_ne (N : Nat) :
    ∀ fuel a p q, fermatGo N fuel a = some (p, q) → p ≠ 1 ∧ p ≠ N := by
  intro fuel
  induction fuel with
  | zero => intro a p q h; exact Option.noConfusion h
  | succ fuel ih =>
    intro a p q h
    rw [fermatGo] at h
    by_cases hsq : is_square (a * a - N) = true
    · rw [if_pos hsq] at h
      by_cases hg : a - isqrt (a * a - N) ≠ 1 ∧ a - isqrt (a * a - N) ≠ N
      · rw [if_pos hg] at h
        obtain ⟨hp, _⟩ := Prod.mk.injEq .. ▸ Option.some.inj h
        rw [← hp]
        exact hg
      · rw [if_neg hg] at h
        by_cases haN : a = N
        · rw [if_pos haN] at h; exact Option.noConfusion h
        · rw [if_neg haN] at h
          exact ih (a + 1) p q h
    · rw [if_neg hsq] at h
      by_cases haN : a = N
      · rw [if_pos haN] at h; exact Option.noConfusion h
      · rw [if_neg haN] at h
        exact ih (a + 1) p q h

/-- If some candidate `g` in `[a, N]` passes both the square test and the
guard, the fermat loop returns a pair (completeness). -/
theorem fermatGo_complete (N g : Nat)
    (hsq : is_square (g * g - N) = true)
    (h1 : g - isqrt (g * g - N) ≠ 1) (hN : g - isqrt (g * g - N) ≠ N)
    (hgN : g ≤ N) :
    ∀ fuel a, a ≤ g → g - a < fuel → (fermatGo N fuel a).isSome := by
  intro fuel
  induction fuel with
  | zero => intro a h1' h2'; omega
  | succ fuel ih =>
    intro a hag hfuel
    rw [fermatGo]
    by_cases hs : is_square (a * a - N) = true
    · rw [if_pos hs]
      by_cases hg : a - isqrt (a * a - N) ≠ 1 ∧ a - isqrt (a * a - N) ≠ N
      · rw [if_pos hg]
        rfl
      · have hne : a ≠ g := by
          intro he
          rw [he] at hg
          exact hg ⟨h1, hN⟩
        have haN : a ≠ N := by omega
        rw [if_neg hg, if_neg haN]
        exact ih (a + 1) (by omega) (by omega)
    · have hne : a ≠ g := by
        intro he
        rw [he] at hs
        exact hs hsq
      have haN : a ≠ N := by omega
      rw [if_neg hs, if_neg haN]
      exact ih (a + 1) (by omega) (by omega)

/-- For `N = p * q` with `p ≤ q`, both odd and at least 3, `fermat` returns
a pair whose product is `N`. -/
theorem fermat_semiprime_aux (p q : Nat) (hp3 : 3 ≤ p) (hpq : p ≤ q)
    (hop : p % 2 = 1) (hoq : q % 2 = 1) :
    ∃ r s, fermat (p * q) = some (r, s) ∧ r * s = p * q := by
  obtain ⟨c, rfl⟩ : ∃ c, q = p + c := ⟨q - p, by omega⟩
  obtain ⟨b, rfl⟩ : ∃ b, c = 2 * b := ⟨c / 2, by omega⟩
  set N := p * (p + 2 * b) with hN
  set g := p + b with hg
  have hgg : g * g = N + b * b := by
    rw [hN, hg]
    ring
  have hsub : g * g - N = b * b := by omega
  have hisq : isqrt (g * g - N) = b := by
    rw [hsub, isqrt_eq_sqrt, Nat.sqrt_eq]
  have hsq : is_square (g * g - N) = true := by
    rw [is_square_iff, hisq, hsub]
  have hgb : g - isqrt (g * g - N) = p := by
    rw [hisq, hg]
    omega
  have hpN : p < N := by
    rw [hN]
    nlinarith
  have h1 : g - isqrt (g * g - N) ≠ 1 := by rw [hgb]; omega
  have hNe : g - isqrt (g * g - N) ≠ N := by rw [hgb]; omega
  have hgN : g ≤ N := by
    rw [hg, hN]
    nlinarith
  have ha0 : ceilSqrt N ≤ g := ceilSqrt_le (by omega)
  have hfuel : g - ceilSqrt N < N + 1 := by omega
  have hsome := fermatGo_complete N g hsq h1 hNe hgN (N + 1) (ceilSqrt N) ha0 hfuel
  unfold fermat
  obtain ⟨⟨r, s⟩, hrs⟩ := Option.isSome_iff_exists.1 hsome
  exact ⟨r, s, hrs, fermatGo_sound N (N + 1) (ceilSqrt N) r s (ceilSqrt_sq_ge N) hrs⟩

/-- For `N = p * q` with both factors odd and at least 3 (in either order),
`fermat` returns a pair whose product is `N`. -/
theorem fermat_semiprime (p q : Nat) (hp3 : 3 ≤ p) (hq3 : 3 ≤ q)
    (hop : p % 2 = 1) (hoq : q % 2 = 1) :
    ∃ r s, fermat (p * q) = some (r, s) ∧ r * s = p * q := by
  rcases le_total p q with h | h
  · exact fermat_semiprime_aux p q hp3 h hop hoq
  · have := fermat_semiprime_aux q p hq3 h hoq hop
    rwa [Nat.mul_comm q p] at this

/-! ### vfactor -/

/-- Any pair returned by the vfactor loop multiplies to `N`. -/
theorem vfactorGo_sound (N : Int) :
    ∀ fuel x y r s, vfactorGo N fuel x y = some (r, s) → r * s = N := by
  intro fuel
  induction fuel with
  | zero => intro x y r s h; exact Option.noConfusion h
  | succ fuel ih =>
    intro x y r s h
    rw [vfactorGo] at h
    by_cases hxy : x * y = N
    · rw [if_pos hxy] at h
      obtain ⟨hr, hs⟩ := Prod.mk.injEq .. ▸ Option.some.inj h
      rw [← hr, ← hs]
      exact hxy
    · rw [if_neg hxy] at h
      by_cases hlt : x * y < N
      · rw [if_pos hlt] at h
        exact ih (x + 2) y r s h
      · rw [if_neg hlt] at h
        exact ih x (y - 2) r s h

/-- The vfactor loop terminates with a correct pair from any state with both
coordinates odd, `1 ≤ x`, `1 ≤ y`, `x ≤ N`, provided `N` is odd, `N ≥ 3`,
and the fuel dominates half the decreasing measure `N - x + y`. -/
theorem vfactorGo_complete (N : Int) (hN2 : N % 2 = 1) :
    ∀ (fuel : Nat) (x y : Int), x % 2 = 1 → y % 2 = 1 → 1 ≤ x → 1 ≤ y → x ≤ N →
      N - x + y ≤ 2 * (fuel : Int) →
      ∃ r s, vfactorGo N fuel x y = some (r, s) ∧ r * s = N := by
  intro fuel
  induction fuel with
  | zero =>
    intro x y hx2 hy2 hx1 hy1 hxN hm
    omega
  | succ fuel ih =>
    intro x y hx2 hy2 hx1 hy1 hxN hm
    rw [vfactorGo]
    by_cases hxy : x * y = N
    · exact ⟨x, y, by rw [if_pos hxy], hxy⟩
    · rw [if_neg hxy]
      by_cases hlt : x * y < N
      · rw [if_pos hlt]
        have hxxy : x ≤ x * y := le_mul_of_one_le_right (by omega) hy1
        have hxN' : x < N := lt_of_le_of_lt hxxy hlt
        exact ih (x + 2) y (by omega) hy2 (by omega) hy1 (by omega) (by omega)
      · rw [if_neg hlt]
        have hy3 : 3 ≤ y := by
          by_contra hc
          have hy1' : y = 1 := by omega
          rw [hy1', Int.mul_one] at hxy hlt
          omega
        exact ih x (y - 2) hx2 (by omega) hx1 (by omega) hxN (by omega)

/-- For odd `N ≥ 3`, `vfactor` returns a pair whose product is `N`. -/
theorem vfactor_succeeds (N : Nat) (hodd : N % 2 = 1) (h3 : 3 ≤ N) :
    ∃ r s, vfactor N = some (r, s) ∧ r * s = (N : Int) := by
  have hs1 : 1 ≤ Nat.sqrt N := Nat.le_sqrt.2 (by omega)
  have hsN : Nat.sqrt N + 2 ≤ N := by
    rcases Nat.lt_or_ge (Nat.sqrt N) 2 with h | h
    · omega
    · have hle := Nat.sqrt_le N
      nlinarith
  have hrooteq : vfactorRoot N =
      if ((isqrt N : Int)) % 2 = 1 then ((isqrt N : Int)) else ((isqrt N : Int)) - 1 := by
    have hne : ("odd" : String) ≠ "even" := by decide
    unfold vfactorRoot LSB
    by_cases h : ((isqrt N : Int)) % 2 = 1
    · simp [h, hne]
    · simp [h]
  have hroot : (vfactorRoot N) % 2 = 1 ∧ 1 ≤ vfactorRoot N ∧
      vfactorRoot N + 2 ≤ (N : Int) := by
    rw [hrooteq, isqrt_eq_sqrt]
    by_cases hpar : ((Nat.sqrt N : Int)) % 2 = 1
    · rw [if_pos hpar]
      refine ⟨hpar, by omega, by omega⟩
    · rw [if_neg hpar]
      refine ⟨by omega, by omega, by omega⟩
  obtain ⟨hr2, hr1, hrN⟩ := hroot
  have hN2 : (N : Int) % 2 = 1 := by omega
  unfold vfactor
  exact vfactorGo_complete (N : Int) hN2 (N + 4) (vfactorRoot N + 2) (vfactorRoot N)
    (by omega) hr2 (by omega) hr1 hrN (by push_cast; omega)

/-- From the state `y = -1` (with `x ≥ 1`) the vfactor loop on `N = 1` never
returns: the product `x * y` is negative, so `x` grows forever. -/
theorem vfactorGo_one_diverges :
    ∀ (fuel : Nat) (x : Int), 1 ≤ x → vfactorGo 1 fuel x (-1) = none := by
  intro fuel
  induction fuel with
  | zero => intro x hx; rfl
  | succ fuel ih =>
    intro x hx
    rw [vfactorGo]
    simp only [mul_neg_one]
    rw [if_neg (by omega : ¬(-x = (1 : Int))), if_pos (by omega : -x < (1 : Int))]
    exact ih (x + 2) (by omega)

/-- On input `N = 1` the vfactor loop never terminates: after one step the
state reaches `y = -1` and diverges. -/
theorem vfactor_not_halts_one : ¬ vfactor_halts 1 := by
  rintro ⟨fuel, hsome⟩
  have hroot : vfactorRoot 1 = 1 := rfl
  rw [hroot] at hsome
  simp only [Nat.cast_one] at hsome
  cases fuel with
  | zero => exact Bool.noConfusion hsome
  | succ f =>
    rw [vfactorGo] at hsome
    rw [if_neg (by norm_num : ¬((1 : Int) + 2) * 1 = 1),
        if_neg (by norm_num : ¬((1 : Int) + 2) * 1 < 1)] at hsome
    rw [show ((1 : Int) - 2) = -1 by norm_num] at hsome
    rw [vfactorGo_one_diverges f (1 + 2) (by norm_num)] at hsome
    exact Bool.noConfusion hsome

/-! ### Miller-Rabin soundness on primes -/

/-- `_factor2go` splits a positive integer into an odd part and a power of
two, given enough fuel. -/
theorem _factor2go_spec :
    ∀ fuel d, 1 ≤ d → d ≤ fuel →
      (_factor2go fuel d).1 % 2 = 1 ∧
      (_factor2go fuel d).1 * 2 ^ (_factor2go fuel d).2 = d := by
  intro fuel
  induction fuel with
  | zero => intro d h1 h2; omega
  | succ fuel ih =>
    intro d h1 h2
    rw [_factor2go]
    by_cases hodd : d % 2 = 1
    · rw [if_pos hodd]
      exact ⟨hodd, by simp⟩
    · rw [if_neg hodd]
      have hd2 : 2 ≤ d := by omega
      obtain ⟨ho, he⟩ := ih (d / 2) (by omega) (by omega)
      refine ⟨ho, ?_⟩
      simp only []
      rw [pow_succ, ← Nat.mul_assoc, he]
      omega

/-- `_factor2 n` returns `(d, s)` with `d` odd and `d * 2 ^ s = n`, for
`n ≥ 1`. -/
theorem _factor2_spec (n : Nat) (h : 1 ≤ n) :
    (_factor2 n).1 % 2 = 1 ∧ (_factor2 n).1 * 2 ^ (_factor2 n).2 = n :=
  _factor2go_spec n n h le_rfl

/-- In a ring without zero divisors, an element whose `2 ^ s`-th power is 1
is 1 itself or has a `-1` somewhere along the repeated-squaring chain. -/
theorem sq_pow_eq_one {R : Type} [Ring R] [NoZeroDivisors R] :
    ∀ (s : Nat) (y : R), y ^ (2 ^ s) = 1 → y = 1 ∨ ∃ i, i < s ∧ y ^ (2 ^ i) = -1 := by
  intro s
  induction s with
  | zero => intro y h; left; simpa using h
  | succ s ih =>
    intro y h
    have hexp : 2 ^ (s + 1) = 2 ^ s + 2 ^ s := by
      rw [pow_succ]
      omega
    have h2 : (y ^ (2 ^ s)) * (y ^ (2 ^ s)) = 1 := by
      rw [← pow_add, ← hexp]
      exact h
    rcases mul_self_eq_one_iff.1 h2 with h1 | hm1
    · rcases ih y h1 with hy | ⟨i, hi, hyi⟩
      · exact Or.inl hy
      · exact Or.inr ⟨i, by omega, hyi⟩
    · exact Or.inr ⟨s, by omega, hm1⟩

/-- On an odd prime `n`, no base `b` with `1 ≤ b < n` is reported as a
compositeness witness: `_is_composite` returns `false`. -/
theorem mr_base_nonwitness (n : Nat) (hp : n.Prime) (h3 : 3 ≤ n)
    (b d s : Nat) (hds : d * 2 ^ s = n - 1)
    (hb1 : 1 ≤ b) (hbn : b < n) :
    _is_composite b d s n = false := by
  obtain ⟨m, rfl⟩ : ∃ m, n = m + 1 := ⟨n - 1, by omega⟩
  haveI : Fact (Nat.Prime (m + 1)) := ⟨hp⟩
  haveI : NeZero (m + 1) := ⟨by omega⟩
  haveI : Fact (1 < m + 1) := ⟨by omega⟩
  have hval : ∀ e, powMod b e (m + 1) = (((b : ZMod (m + 1))) ^ e).val := by
    intro e
    have hcast : ((b : ZMod (m + 1))) ^ e = ((b ^ e : Nat) : ZMod (m + 1)) := by
      push_cast
      rfl
    rw [powMod_eq, hcast, ZMod.val_natCast]
  have hx0 : (b : ZMod (m + 1)) ≠ 0 := by
    intro h0
    rw [ZMod.natCast_zmod_eq_zero_iff_dvd] at h0
    exact absurd (Nat.le_of_dvd (by omega) h0) (by omega)
  have hfer : ((b : ZMod (m + 1))) ^ (m + 1 - 1) = 1 :=
    ZMod.pow_card_sub_one_eq_one hx0
  have hpow : (((b : ZMod (m + 1))) ^ d) ^ (2 ^ s) = 1 := by
    rw [← pow_mul, hds]
    exact hfer
  unfold _is_composite
  by_cases h1 : powMod b d (m + 1) = 1
  · rw [if_pos h1]
  · rw [if_neg h1]
    rcases sq_pow_eq_one s ((b : ZMod (m + 1)) ^ d) hpow with hy | ⟨i, hi, hyi⟩
    · exfalso
      apply h1
      rw [hval d, hy, ZMod.val_one]
    · have hany : (List.range s).any
          (fun i => powMod b (2 ^ i * d) (m + 1) == m + 1 - 1) = true := by
        rw [List.any_eq_true]
        refine ⟨i, List.mem_range.2 hi, ?_⟩
        rw [beq_iff_eq, hval (2 ^ i * d)]
        have hpe : ((b : ZMod (m + 1))) ^ (2 ^ i * d) = -1 := by
          rw [Nat.mul_comm, pow_mul]
          exact hyi
        rw [hpe]
        exact ZMod.val_neg_one m
      rw [if_pos hany]

/-- `miller_rabin` never reports an odd prime `n ≥ 3` as composite, for any
list of bases inside the validated range `1 ≤ b < n`. -/
theorem miller_rabin_prime (n : Nat) (hp : n.Prime) (h3 : 3 ≤ n) (hodd : n % 2 = 1)
    (bases : List Nat) (hb : ∀ b ∈ bases, 1 ≤ b ∧ b < n) :
    miller_rabin n bases = true := by
  unfold miller_rabin
  rw [if_neg (by omega : ¬n < 2), if_neg (by omega : ¬n = 2),
      if_neg (by omega : ¬n % 2 = 0)]
  show bases.all (fun a => ! _is_composite a (_factor2 (n - 1)).1 (_factor2 (n - 1)).2 n) = true
  rw [List.all_eq_true]
  intro a ha
  obtain ⟨hd, hds⟩ := _factor2_spec (n - 1) (by omega)
  rw [Bool.not_eq_true']
  exact mr_base_nonwitness n hp h3 a _ _ hds (hb a ha).1 (hb a ha).2

/-- `isprime` returns `true` on every prime, whatever values the random
draw supplies in the probabilistic regime, as long as they lie in the range
`[18, n-1]` produced by `random.randint(18, n-1)`. -/
theorem isprime_of_prime (n : Nat) (rnd : List Nat) (hp : n.Prime)
    (hr : ∀ b ∈ rnd, 18 ≤ b ∧ b < n) : isprime n rnd = true := by
  have h2le : 2 ≤ n := hp.two_le
  unfold isprime
  rcases eq_or_ne n 2 with h2 | h2
  · rw [if_neg (by omega), if_pos h2]
  · have hodd : n % 2 = 1 := Nat.odd_iff.1 (hp.odd_of_ne_two h2)
    rcases Nat.lt_or_ge n 8 with hsmall | hbig
    · rw [if_neg (by omega), if_neg h2, if_neg (by omega), if_pos (by omega)]
    · rw [if_neg (by omega), if_neg h2, if_neg (by omega), if_neg (by omega)]
      apply miller_rabin_prime n hp (by omega) hodd
      intro b hbmem
      unfold _choose_bases at hbmem
      split_ifs at hbmem with c1 c2 c3 c4 c5 c6
      · simp only [List.mem_cons, List.not_mem_nil, or_false] at hbmem
        rcases hbmem with rfl | rfl <;> omega
      · simp only [List.mem_cons, List.not_mem_nil, or_false] at hbmem
        rcases hbmem with rfl | rfl <;> omega
      · simp only [List.mem_cons, List.not_mem_nil, or_false] at hbmem
        rcases hbmem with rfl | rfl | rfl <;> omega
      · simp only [List.mem_cons, List.not_mem_nil, or_false] at hbmem
        rcases hbmem with rfl | rfl | rfl | rfl | rfl <;> omega
      · simp only [List.mem_cons, List.not_mem_nil, or_false] at hbmem
        rcases hbmem with rfl | rfl | rfl | rfl | rfl | rfl <;> omega
      · simp only [List.mem_cons, List.not_mem_nil, or_false] at hbmem
        rcases hbmem with rfl | rfl | rfl | rfl | rfl | rfl | rfl <;> omega
      · rw [List.mem_append] at hbmem
        rcases hbmem with hfix | hrnd
        · simp only [List.mem_cons, List.not_mem_nil, or_false] at hfix
          rcases hfix with rfl | rfl | rfl | rfl | rfl | rfl | rfl <;> omega
        · obtain ⟨hb18, hbn⟩ := hr b hrnd
          omega

/-! ### factorise / factors -/

/-- `nextAbove` never returns less than its starting candidate. -/
theorem nextAbove_ge : ∀ fuel c, c ≤ nextAbove fuel c := by
  intro fuel
  induction fuel with
  | zero => intro c; exact le_rfl
  | succ fuel ih =>
    intro c
    rw [nextAbove]
    by_cases h : isprime_naive c = true
    · rw [if_pos h]
    · rw [if_neg h]
      exact le_trans (by omega) (ih (c + 1))

/-- Stripping the factor `p` preserves the product: `p ^ count * n' = n`,
and the reduced value stays positive. -/
theorem stripGo_spec (p : Nat) (hp : 2 ≤ p) :
    ∀ fuel n, 1 ≤ n → n ≤ fuel →
      p ^ (stripGo p fuel n).1 * (stripGo p fuel n).2 = n ∧
      1 ≤ (stripGo p fuel n).2 := by
  intro fuel
  induction fuel with
  | zero => intro n h1 h2; omega
  | succ fuel ih =>
    intro n h1 h2
    rw [stripGo]
    by_cases hmod : n % p = 0
    · rw [if_pos hmod]
      have hdvd : p ∣ n := Nat.dvd_of_mod_eq_zero hmod
      have hq1 : 1 ≤ n / p := Nat.one_le_div_iff (by omega) |>.2 (Nat.le_of_dvd (by omega) hdvd)
      have hqf : n / p ≤ fuel := by
        have : n / p < n := Nat.div_lt_self (by omega) (by omega)
        omega
      obtain ⟨hprod, hpos⟩ := ih (n / p) hq1 hqf
      constructor
      · simp only []
        rw [pow_succ]
        calc p ^ (stripGo p fuel (n / p)).1 * p * (stripGo p fuel (n / p)).2
            = p * (p ^ (stripGo p fuel (n / p)).1 * (stripGo p fuel (n / p)).2) := by ring
          _ = p * (n / p) := by rw [hprod]
          _ = n := Nat.mul_div_cancel' hdvd
      · exact hpos
    · rw [if_neg hmod]
      exact ⟨by simp, h1⟩

/-- The main `factorise` loop is product-preserving: the factor powers it
emits multiply back to its input, for any fuel. -/
theorem factoriseGo_prod :
    ∀ fuel p n, 2 ≤ p → 1 ≤ n →
      ((factoriseGo fuel p n).map (fun pc => pc.1 ^ pc.2)).prod = n := by
  intro fuel
  induction fuel with
  | zero =>
    intro p n hp hn
    rw [factoriseGo]
    by_cases h : n ≠ 1
    · rw [if_pos h]
      simp
    · rw [if_neg h]
      simp only [List.map_nil, List.prod_nil]
      omega
  | succ fuel ih =>
    intro p n hp hn
    rw [factoriseGo]
    by_cases hbreak : n < p * p
    · rw [if_pos hbreak]
      by_cases h : n ≠ 1
      · rw [if_pos h]
        simp
      · rw [if_neg h]
        simp only [List.map_nil, List.prod_nil]
        omega
    · rw [if_neg hbreak]
      obtain ⟨hprod, hpos⟩ := stripGo_spec p hp n n hn le_rfl
      have hnext : 2 ≤ nextPrimeAbove p := by
        have := nextAbove_ge (2 * p + 4) (p + 1)
        unfold nextPrimeAbove
        omega
      have hrest := ih (nextPrimeAbove p) (stripGo p n n).2 hnext hpos
      by_cases hc : (stripGo p n n).1 ≠ 0
      · rw [if_pos hc]
        simp only [List.map_cons, List.prod_cons]
        rw [hrest]
        exact hprod
      · rw [if_neg hc]
        rw [hrest]
        have hc0 : (stripGo p n n).1 = 0 := by omega
        rw [hc0, pow_zero, Nat.one_mul] at hprod
        exact hprod

/-- Expanding a mapped factor list into repeated factors and multiplying
recovers the Nat-level product of prime powers, as an integer. -/
theorem flatMap_replicate_prod (l : List (Nat × Nat)) :
    ((l.map (fun pc => ((pc.1 : Int), pc.2))).flatMap
        (fun pc => List.replicate pc.2 pc.1)).prod
      = (((l.map (fun pc => pc.1 ^ pc.2)).prod : Nat) : Int) := by
  induction l with
  | nil => simp
  | cons a l ih =>
    simp only [List.map_cons, List.flatMap_cons, List.prod_append, List.prod_cons,
      List.prod_replicate, ih]
    push_cast
    ring

/-! ### Totient scans -/

/-- The ascending and descending totient loops accumulate the same count. -/
theorem ascGo_eq_descGo (n : Nat) : ∀ m, eulerPhiAscGo n m = eulerPhiDescGo n m := by
  intro m
  induction m with
  | zero => rfl
  | succ m ih =>
    rw [eulerPhiAscGo, eulerPhiDescGo, ih]
    omega

/-- The ascending totient loop counts the coprime points of `[1, m]`. -/
theorem ascGo_countP (n : Nat) :
    ∀ m, eulerPhiAscGo n m = (List.range' 1 m).countP (fun k => Nat.gcd n k == 1) := by
  intro m
  induction m with
  | zero => rfl
  | succ m ih =>
    rw [eulerPhiAscGo, ih, List.range'_concat, List.countP_append]
    simp only [Nat.one_mul, List.countP_cons, List.countP_nil]
    rw [show 1 + m = m + 1 by omega]
    by_cases h : Nat.gcd n (m + 1) = 1
    · simp [h]
    · simp [h]

/-- The ascending totient loop counts the coprime points of `Finset.Icc 1 m`. -/
theorem ascGo_card (n : Nat) :
    ∀ m, eulerPhiAscGo n m = ((Finset.Icc 1 m).filter (fun k => Nat.gcd n k = 1)).card := by
  intro m
  induction m with
  | zero => rfl
  | succ m ih =>
    have hicc : Finset.Icc 1 (m + 1) = insert (m + 1) (Finset.Icc 1 m) := by
      ext k
      simp only [Finset.mem_Icc, Finset.mem_insert]
      omega
    rw [eulerPhiAscGo, ih, hicc, Finset.filter_insert]
    split_ifs with h
    · rw [Finset.card_insert_of_not_mem]
      intro hmem
      rw [Finset.mem_filter, Finset.mem_Icc] at hmem
      omega
    · omega

/-- The balanced coprime counter agrees with the linear scan on any interval
whose length fits inside `2 ^ fuel`. -/
theorem coprimeCountBal_eq (n : Nat) :
    ∀ fuel lo len, len ≤ 2 ^ fuel →
      coprimeCountBal n fuel lo len =
        (List.range' lo len).countP (fun k => Nat.gcd n k == 1) := by
  intro fuel
  induction fuel with
  | zero =>
    intro lo len hlen
    rw [coprimeCountBal]
    interval_cases len
    · rfl
    · simp [List.countP_cons]
  | succ fuel ih =>
    intro lo len hlen
    rw [coprimeCountBal]
    by_cases hsmall : len ≤ 1
    · rw [if_pos hsmall]
      interval_cases len
      · rfl
      · simp [List.countP_cons]
    · rw [if_neg hsmall]
      have hsplit : List.range' lo (len / 2) ++ List.range' (lo + len / 2) (len - len / 2)
          = List.range' lo len := by
        have h := List.range'_append_1 lo (len / 2) (len - len / 2)
        rw [show len - len / 2 + len / 2 = len by omega] at h
        exact h
      have hp2 : 2 ^ (fuel + 1) = 2 ^ fuel + 2 ^ fuel := by
        rw [pow_succ]
        omega
      rw [← hsplit, List.countP_append]
      rw [ih lo (len / 2) (by omega), ih (lo + len / 2) (len - len / 2) (by omega)]

/-- Linear-to-balanced bridge for the descending totient scan, enabling
kernel evaluation of `euler_phi_desc` at concrete inputs. -/
theorem euler_phi_desc_eq_bal (n : Nat) (h : n ≤ 2 ^ 13) :
    euler_phi_desc n = coprimeCountBal n 13 1 n := by
  rw [euler_phi_desc, ← ascGo_eq_descGo, ascGo_countP, coprimeCountBal_eq n 13 1 n h]

/-! ### Determinism of the base choice below the probabilistic threshold -/

/-- Below the last threshold, `_choose_bases` ignores the random draw. -/
theorem choose_bases_deterministic (n : Nat) (rnd1 rnd2 : List Nat)
    (h : n < 341550071728321) : _choose_bases n rnd1 = _choose_bases n rnd2 := by
  unfold _choose_bases
  split_ifs <;> first | rfl | omega

/-- Below the last threshold, `isprime` ignores the random draw. -/
theorem isprime_deterministic (n : Nat) (rnd1 rnd2 : List Nat)
    (h : n < 341550071728321) : isprime n rnd1 = isprime n rnd2 := by
  unfold isprime
  rw [choose_bases_deterministic n rnd1 rnd2 h]

/-- Agreement of `isprimeFast` with `isprime_naive` on `[0, 1024)`
(vacuously true outside `[2, 10000]`), by kernel evaluation. -/
theorem isprimeFast_chunk0 : ballPow
    (fun N => !(decide (2 ≤ N) && decide (N ≤ 10000)) || (isprimeFast N == isprime_naive N))
    10 0 = true := by decide!

/-- Agreement of `isprimeFast` with `isprime_naive` on `[1024, 2048)`
(vacuously true outside `[2, 10000]`), by kernel evaluation. -/
theorem isprimeFast_chunk1 : ballPow
    (fun N => !(decide (2 ≤ N) && decide (N ≤ 10000)) || (isprimeFast N == isprime_naive N))
    10 1024 = true := by decide!

/-- Agreement of `isprimeFast` with `isprime_naive` on `[2048, 3072)`
(vacuously true outside `[2, 10000]`), by kernel evaluation. -/
theorem isprimeFast_chunk2 : ballPow
    (fun N => !(decide (2 ≤ N) && decide (N ≤ 10000)) || (isprimeFast N == isprime_naive N))
    10 2048 = true := by decide!

/-- Agreement of `isprimeFast` with `isprime_naive` on `[3072, 4096)`
(vacuously true outside `[2, 10000]`), by kernel evaluation. -/
theorem isprimeFast_chunk3 : ballPow
    (fun N => !(decide (2 ≤ N) && decide (N ≤ 10000)) || (isprimeFast N == isprime_naive N))
    10 3072 = true := by decide!

/-- Agreement of `isprimeFast` with `isprime_naive` on `[4096, 5120)`
(vacuously true outside `[2, 10000]`), by kernel evaluation. -/
theorem isprimeFast_chunk4 : ballPow
    (fun N => !(decide (2 ≤ N) && decide (N ≤ 10000)) || (isprimeFast N == isprime_naive N))
    10 4096 = true := by decide!

/-- Agreement of `isprimeFast` with `isprime_naive` on `[5120, 6144)`
(vacuously true outside `[2, 10000]`), by kernel evaluation. -/
theorem isprimeFast_chunk5 : ballPow
    (fun N => !(decide (2 ≤ N) && decide (N ≤ 10000)) || (isprimeFast N == isprime_naive N))
    10 5120 = true := by decide!

/-- Agreement of `isprimeFast` with `isprime_naive` on `[6144, 7168)`
(vacuously true outside `[2, 10000]`), by kernel evaluation. -/
theorem isprimeFast_chunk6 : ballPow
    (fun N => !(decide (2 ≤ N) && decide (N ≤ 10000)) || (isprimeFast N == isprime_naive N))
    10 6144 = true := by decide!

/-- Agreement of `isprimeFast` with `isprime_naive` on `[7168, 8192)`
(vacuously true outside `[2, 10000]`), by kernel evaluation. -/
theorem isprimeFast_chunk7 : ballPow
    (fun N => !(decide (2 ≤ N) && decide (N ≤ 10000)) || (isprimeFast N == isprime_naive N))
    10 7168 = true := by decide!

/-- Agreement of `isprimeFast` with `isprime_naive` on `[8192, 9216)`
(vacuously true outside `[2, 10000]`), by kernel evaluation. -/
theorem isprimeFast_chunk8 : ballPow
    (fun N => !(decide (2 ≤ N) && decide (N ≤ 10000)) || (isprimeFast N == isprime_naive N))
    10 8192 = true := by decide!

/-- Agreement of `isprimeFast` with `isprime_naive` on `[9216, 10240)`
(vacuously true outside `[2, 10000]`), by kernel evaluation. -/
theorem isprimeFast_chunk9 : ballPow
    (fun N => !(decide (2 ≤ N) && decide (N ≤ 10000)) || (isprimeFast N == isprime_naive N))
    10 9216 = true := by decide!

/-- A point inside a verified `ballPow` chunk satisfies the predicate. -/
theorem ballPow_chunk (P : Nat → Bool) (lo : Nat) (h : ballPow P 10 lo = true)
    {N : Nat} (hlo : lo ≤ N) (hhi : N < lo + 1024) : P N = true := by
  have hmem := (ballPow_eq P 10 lo).1 h (N - lo) (by norm_num; omega)
  rw [show lo + (N - lo) = N by omega] at hmem
  exact hmem

/-- `isprimeFast` agrees with `isprime_naive` on all of `[2, 10000]`. -/
theorem isprime_fast_agrees_upto (N : Nat) (h2 : 2 ≤ N) (h1 : N ≤ 10000) :
    isprimeFast N = isprime_naive N := by
  have hP : (fun N => !(decide (2 ≤ N) && decide (N ≤ 10000)) ||
      (isprimeFast N == isprime_naive N)) N = true := by
    rcases Nat.lt_or_ge N 1024 with h | h
    · exact ballPow_chunk _ 0 isprimeFast_chunk0 (by omega) (by omega)
    rcases Nat.lt_or_ge N 2048 with h' | h'
    · exact ballPow_chunk _ 1024 isprimeFast_chunk1 (by omega) (by omega)
    rcases Nat.lt_or_ge N 3072 with h'' | h''
    · exact ballPow_chunk _ 2048 isprimeFast_chunk2 (by omega) (by omega)
    rcases Nat.lt_or_ge N 4096 with h3 | h3
    · exact ballPow_chunk _ 3072 isprimeFast_chunk3 (by omega) (by omega)
    rcases Nat.lt_or_ge N 5120 with h4 | h4
    · exact ballPow_chunk _ 4096 isprimeFast_chunk4 (by omega) (by omega)
    rcases Nat.lt_or_ge N 6144 with h5 | h5
    · exact ballPow_chunk _ 5120 isprimeFast_chunk5 (by omega) (by omega)
    rcases Nat.lt_or_ge N 7168 with h6 | h6
    · exact ballPow_chunk _ 6144 isprimeFast_chunk6 (by omega) (by omega)
    rcases Nat.lt_or_ge N 8192 with h7 | h7
    · exact ballPow_chunk _ 7168 isprimeFast_chunk7 (by omega) (by omega)
    rcases Nat.lt_or_ge N 9216 with h8 | h8
    · exact ballPow_chunk _ 8192 isprimeFast_chunk8 (by omega) (by omega)
    · exact ballPow_chunk _ 9216 isprimeFast_chunk9 (by omega) (by omega)
  simp only [Bool.or_eq_true, Bool.not_eq_true', Bool.and_eq_false_iff,
    decide_eq_false_iff_not] at hP
  rcases hP with (hf | hf) | hok
  · omega
  · omega
  · rwa [beq_iff_eq] at hok

/-! ## Claim theorems -/

/-- C1: for every composite `N = p * q` with `p`, `q` prime and below
`10 ^ 6`, each factorization strategy whose preconditions hold returns a
pair of integers whose product equals `N`: trial division always;
Fermat when both factors are odd (they are then automatically distinct from
1 and `N`); vfactor when `N` is odd. -/
theorem C1_strategies_return_product (p q : Nat)
    (hp : Nat.Prime p) (hq : Nat.Prime q) (hp6 : p < 10 ^ 6) (hq6 : q < 10 ^ 6) :
    (trial_division (p * q)).1 * (trial_division (p * q)).2 = p * q ∧
    (p % 2 = 1 → q % 2 = 1 →
      ∃ r s, fermat (p * q) = some (r, s) ∧ r * s = p * q) ∧
    ((p * q) % 2 = 1 →
      ∃ x y, vfactor (p * q) = some (x, y) ∧ x * y = ((p * q : Nat) : Int)) := by
  have hp2 : 2 ≤ p := hp.two_le
  have hq2 : 2 ≤ q := hq.two_le
  refine ⟨?_, ?_, ?_⟩
  · exact trial_division_prod (by nlinarith)
  · intro hop hoq
    exact fermat_semiprime p q (by omega) (by omega) hop hoq
  · intro hodd
    exact vfactor_succeeds (p * q) hodd (by nlinarith)

theorem C1_strategies_return_product_witness :
    Nat.Prime 3 ∧ Nat.Prime 5 ∧ 3 < 10 ^ 6 ∧ 5 < 10 ^ 6 ∧
      ((trial_division (3 * 5)).1 * (trial_division (3 * 5)).2 = 3 * 5 ∧
      (3 % 2 = 1 → 5 % 2 = 1 →
        ∃ r s, fermat (3 * 5) = some (r, s) ∧ r * s = 3 * 5) ∧
      ((3 * 5) % 2 = 1 →
        ∃ x y, vfactor (3 * 5) = some (x, y) ∧ x * y = ((3 * 5 : Nat) : Int))) :=
  ⟨by norm_num, by norm_num, by norm_num, by norm_num,
    C1_strategies_return_product 3 5 (by norm_num) (by norm_num)
      (by norm_num) (by norm_num)⟩

/-- C2: for odd `n` with `7 < n < 341550071728321`, `isprime n` is exactly
the Miller-Rabin test of `n` against the base tuple selected by `n`'s
magnitude, as the spec lists it (`basesFor`), independently of the random
draw. -/
theorem C2_isprime_magnitude_bases (n : Nat) (rnd : List Nat)
    (hodd : Odd n) (h7 : 7 < n) (hlt : n < 341550071728321) :
    isprime n rnd = miller_rabin n (basesFor n) := by
  have h2 : n % 2 = 1 := Nat.odd_iff.1 hodd
  unfold isprime
  rw [if_neg (by omega), if_neg (by omega), if_neg (by omega), if_neg (by omega)]
  have hbases : _choose_bases n rnd = basesFor n := by
    unfold _choose_bases basesFor
    split_ifs <;> first | rfl | omega
  rw [hbases]

theorem C2_isprime_magnitude_bases_witness :
    Odd 11 ∧ 7 < 11 ∧ 11 < 341550071728321 ∧
      isprime 11 [] = miller_rabin 11 (basesFor 11) :=
  ⟨by decide, by norm_num, by norm_num,
    C2_isprime_magnitude_bases 11 [] (by decide) (by norm_num) (by norm_num)⟩

/-- C3: `isprime` returns `true` on every prime `n`, whatever bases in
`[18, n-1]` the probabilistic regime draws: the Miller-Rabin test has no
false negatives. -/
theorem C3_isprime_true_on_primes (n : Nat) (rnd : List Nat)
    (hp : Nat.Prime n) (hr : ∀ b ∈ rnd, 18 ≤ b ∧ b < n) :
    isprime n rnd = true :=
  isprime_of_prime n rnd hp hr

theorem C3_isprime_true_on_primes_witness :
    Nat.Prime 13 ∧ isprime 13 [] = true :=
  ⟨by norm_num, C3_isprime_true_on_primes 13 [] (by norm_num) (by simp)⟩

/-- C4 counterexample: `trial_division` does return a pair with first
component 1 (on the prime 5), and `vfactor` does return a pair with first
component equal to `N` (on `N = 9`), so the claim that no strategy ever
returns `p = 1` or `p = N` is false as stated. -/
theorem C4_counterexample :
    trial_division 5 = (1, 5) ∧ vfactor 9 = some (9, 1) := by
  constructor
  · decide
  · decide

/-- C4 amended: the `p ≠ 1`, `p ≠ N` rejection is enforced by Fermat's
method only — every pair `fermat` returns has first component distinct from
1 and from `N` (trial division and vfactor can return the trivial pair, as
the counterexample shows). -/
theorem C4_fermat_never_trivial (N p q : Nat)
    (h : fermat N = some (p, q)) : p ≠ 1 ∧ p ≠ N :=
  fermatGo_ne N (N + 1) (ceilSqrt N) p q h

theorem C4_fermat_never_trivial_witness :
    fermat 15 = some (3, 5) ∧ (3 ≠ 1 ∧ 3 ≠ 15) :=
  ⟨by decide, C4_fermat_never_trivial 15 3 5 (by decide)⟩

/-- C5: on every `N` in `[2, 10000]`, `isprime` agrees with the
trial-division ground truth `isprime_naive` (whatever random draw is
supplied: in this range the deterministic regime applies). -/
theorem C5_isprime_agrees_naive (N : Nat) (rnd : List Nat)
    (h2 : 2 ≤ N) (h1 : N ≤ 10000) : isprime N rnd = isprime_naive N := by
  rw [isprime_deterministic N rnd [] (by omega), isprime_eq_fast N (by omega)]
  exact isprime_fast_agrees_upto N h2 h1

theorem C5_isprime_agrees_naive_witness :
    2 ≤ 9973 ∧ 9973 ≤ 10000 ∧ isprime 9973 [] = isprime_naive 9973 :=
  ⟨by norm_num, by norm_num, C5_isprime_agrees_naive 9973 [] (by norm_num) (by norm_num)⟩

/-- C6: multiplying together the elements of `factors n` reconstructs `n`
exactly, for every integer `n`, including negative `n` (where `-1` is a
factor) and `n` in `{0, 1}` (where `[n]` is the only factor). -/
theorem C6_factors_multiply_back (n : Int) : (factors n).prod = n := by
  unfold factors factorise
  by_cases h0 : n = 0 ∨ n = 1 ∨ n = -1
  · rw [if_pos h0]
    rcases h0 with rfl | rfl | rfl <;> simp
  · rw [if_neg h0]
    have hne0 : n ≠ 0 := by tauto
    have habs : 1 ≤ n.natAbs := by omega
    by_cases hneg : n < 0
    · rw [if_pos hneg]
      rw [List.flatMap_cons, List.prod_append]
      rw [flatMap_replicate_prod,
        factoriseGo_prod (n.natAbs + 2) 2 n.natAbs (by norm_num) habs]
      simp only [List.replicate, List.prod_cons, List.prod_nil]
      omega
    · rw [if_neg hneg]
      rw [flatMap_replicate_prod,
        factoriseGo_prod (n.natAbs + 2) 2 n.natAbs (by norm_num) habs]
      omega

/-- C7: on `N = 4183`, Fermat's method returns exactly `(47, 89)`, and
Euler's method with the totient from the descending scan also returns
`(47, 89)`; the product is 4183. -/
theorem C7_fermat_euler_4183 :
    fermat 4183 = some (47, 89) ∧
    euler 4183 (euler_phi_desc 4183) = (47, 89) ∧
    47 * 89 = 4183 := by
  have hphi : euler_phi_desc 4183 = 4048 := by
    rw [euler_phi_desc_eq_bal 4183 (by norm_num)]
    decide
  refine ⟨by decide, ?_, by norm_num⟩
  rw [hphi]
  decide

/-- C8 counterexample: `N = 1` is odd and the product of the two odd
factors `1 * 1`, yet the `vfactor` loop never reaches `x * y = N`: no
amount of fuel makes the state search return. -/
theorem C8_counterexample :
    (1 : Nat) = 1 * 1 ∧ (1 : Nat) % 2 = 1 ∧ ¬ vfactor_halts 1 :=
  ⟨rfl, rfl, vfactor_not_halts_one⟩

/-- C8 amended: for every odd `N ≥ 3` (in particular every odd `N` that is
a product of two odd factors other than `1 = 1 * 1`), `vfactor` terminates:
the loop reaches `x * y = N` and returns that pair. -/
theorem C8_vfactor_terminates (N : Nat) (hodd : N % 2 = 1) (h3 : 3 ≤ N) :
    ∃ x y, vfactor N = some (x, y) ∧ x * y = (N : Int) :=
  vfactor_succeeds N hodd h3

theorem C8_vfactor_terminates_witness :
    15 % 2 = 1 ∧ 3 ≤ 15 ∧
      ∃ x y, vfactor 15 = some (x, y) ∧ x * y = ((15 : Nat) : Int) :=
  ⟨rfl, by norm_num, C8_vfactor_terminates 15 rfl (by norm_num)⟩

/-- C9 counterexample: at `n = 341550071728321` (the first input of the
probabilistic regime), two draws that `random.randint(18, n-1)` can
produce — forty copies of 18 and forty copies of 23 — make the two
successive `isprime` calls return different booleans. -/
theorem C9_counterexample :
    (List.replicate 40 18).all
        (fun b => decide (18 ≤ b) && decide (b < 341550071728321)) = true ∧
    (List.replicate 40 23).all
        (fun b => decide (18 ≤ b) && decide (b < 341550071728321)) = true ∧
    isprime 341550071728321 (List.replicate 40 18) = true ∧
    isprime 341550071728321 (List.replicate 40 23) = false := by
  have heq : ∀ rnd : List Nat, isprime 341550071728321 rnd =
      ([2, 3, 5, 7, 11, 13, 17] ++ rnd).all
        (fun a => sprpBase 341550071728321 (_factor2 (341550071728321 - 1)).1
          (_factor2 (341550071728321 - 1)).2 a) := by
    intro rnd
    unfold isprime
    rw [if_neg (by norm_num), if_neg (by norm_num), if_neg (by norm_num),
      if_neg (by norm_num)]
    have hbases : _choose_bases 341550071728321 rnd
        = [2, 3, 5, 7, 11, 13, 17] ++ rnd := by
      unfold _choose_bases
      rw [if_neg (by norm_num), if_neg (by norm_num), if_neg (by norm_num),
        if_neg (by norm_num), if_neg (by norm_num), if_neg (by norm_num)]
    rw [hbases, miller_rabin_eq_sprp _ _ (by norm_num) (by norm_num)]
  refine ⟨by decide, by decide, ?_, ?_⟩
  · rw [heq, List.all_append, List.all_replicate,
      if_neg (by norm_num : (40 : Nat) ≠ 0)]
    decide
  · rw [heq, List.all_append, List.all_replicate,
      if_neg (by norm_num : (40 : Nat) ≠ 0)]
    decide

/-- C9 amended: below the probabilistic threshold 341550071728321 the
result of `isprime` does not depend on the random draw at all, so two
successive calls agree; at or above the threshold two calls can differ
(see the counterexample). -/
theorem C9_isprime_deterministic_below (n : Nat) (rnd1 rnd2 : List Nat)
    (h : n < 341550071728321) : isprime n rnd1 = isprime n rnd2 :=
  isprime_deterministic n rnd1 rnd2 h

theorem C9_isprime_deterministic_below_witness :
    100 < 341550071728321 ∧ isprime 100 [7] = isprime 100 [9] :=
  ⟨by norm_num, C9_isprime_deterministic_below 100 [7] [9] (by norm_num)⟩

/-- C10: for every positive `n` the ascending and the descending totient
scans return the same value, the number of `k` in `[1, n]` with
`gcd(n, k) = 1`. -/
theorem C10_totient_scans_agree (n : Nat) (_hn : 1 ≤ n) :
    euler_phi_asc n = euler_phi_desc n ∧
    euler_phi_asc n = ((Finset.Icc 1 n).filter (fun k => Nat.gcd n k = 1)).card := by
  constructor
  · rw [euler_phi_asc, euler_phi_desc, ascGo_eq_descGo]
  · rw [euler_phi_asc, ascGo_card]

theorem C10_totient_scans_agree_witness :
    1 ≤ 12 ∧ (euler_phi_asc 12 = euler_phi_desc 12 ∧
      euler_phi_asc 12 =
        ((Finset.Icc 1 12).filter (fun k => Nat.gcd 12 k = 1)).card) :=
  ⟨by norm_num, C10_totient_scans_agree 12 (by norm_num)⟩
